import Mathlib

/-!
Verification of the caddy-storage-redis storage backend.

Shallow embedding of the repository sources:
  storage.go   (Store / Load / Delete / Stat / Unlock, directory index walks)
  crypto.go    (encrypt / decrypt, AES-GCM with the nonce prepended)
  compress.go  (compress / uncompress via compress/flate)

Modelling conventions, each noted again at the definition it concerns:
  - A Go path string (always cleaned, slash separated, produced by path.Join)
    is represented as the list of its components.  path.Dir corresponds to
    List.dropLast with the empty list playing the role of the root sentinel
    value, path.Base to List.getLastD, path.Join to list append.
  - Machine integers are Nat or Int; byte strings are List Nat.
  - The Go standard library pieces that are outside this repository
    (compress/flate, crypto/aes + crypto/cipher GCM, encoding/json, the Redis
    client commands) are modelled by executable Lean functions that satisfy
    the documented contracts of those libraries; the repository code itself
    is translated statement by statement.
  - Redis command failures caused by the network cannot happen in a pure
    model, so the state carries an explicit fault-injection list naming the
    sorted-set keys on which a ZADD command fails; everything else succeeds.
-/

namespace StorageRedis

/-- Errors surfaced by the storage operations. `notFound` models
fs.ErrNotExist (returned on redis.Nil / missing data), `msg` models the
fmt.Errorf wrapped failures of storage.go and crypto.go. -/
inductive Err where
  | notFound
  | msg (s : String)
deriving DecidableEq

/-- A key path: the components of a cleaned slash separated Go path string.
The empty list stands for the root sentinel (the Go path value consisting of
a single dot). -/
abbrev Path := List String

/-- A sorted-set member as produced by splitDirectoryKey (storage.go): the
base name of the key together with the trailing-slash directory marker that
the source appends when baseIsDir is set. -/
abbrev ZMember := String × Bool

/-- The StorageData record of storage.go.  The source stores it JSON
encoded; encoding/json marshalling of this record round-trips, so the model
keeps the record itself as the stored value. -/
structure StorageData where
  Value : List Nat
  Modified : Int
  Size : Int
  Compression : Nat
  Encryption : Nat
deriving DecidableEq

/-- The Redis database state visible to this module: flat string records
(key to StorageData) and sorted sets (key to members with scores), both as
association lists.  Empty sorted sets are never stored, mirroring Redis
where removing the last member deletes the set key.  `zaddFailing` is fault
injection: ZADD commands on these sorted-set keys fail with a network
error, which lets the model express backing-store failures. -/
structure RedisState where
  kv : List (Path × StorageData)
  zsets : List (Path × List (ZMember × Int))
  zaddFailing : List Path
deriving DecidableEq

def emptyState : RedisState := ⟨[], [], []⟩

/-- Association-list lookup keyed by Path. -/
def lookupA {β : Type} : List (Path × β) → Path → Option β
  | [], _ => none
  | (k, v) :: rest, q => if k = q then some v else lookupA rest q

/-- Association-list update: replaces the binding of the key, appending a
new binding when the key is absent. -/
def updateA {β : Type} : List (Path × β) → Path → β → List (Path × β)
  | [], q, v => [(q, v)]
  | (k, w) :: rest, q, v =>
      if k = q then (q, v) :: rest else (k, w) :: updateA rest q v

/-- Association-list removal of every binding of the key. -/
def removeA {β : Type} : List (Path × β) → Path → List (Path × β)
  | [], _ => []
  | (k, v) :: rest, q =>
      if k = q then removeA rest q else (k, v) :: removeA rest q

def zlookup (st : RedisState) (k : Path) : Option (List (ZMember × Int)) :=
  lookupA st.zsets k

/-- Redis ZADD: returns the number of newly added members (0 when the
member already existed, in which case only its score is refreshed).  Fails
with a network error exactly on the fault-injected keys. -/
def zadd (st : RedisState) (k : Path) (m : ZMember) (score : Int) :
    RedisState × Except Err Nat :=
  if k ∈ st.zaddFailing then (st, Except.error (Err.msg "zadd network error"))
  else
    match zlookup st k with
    | none =>
        ({ st with zsets := st.zsets ++ [(k, [(m, score)])] }, Except.ok 1)
    | some ms =>
        if ms.any (fun p => decide (p.1 = m)) then
          let rescored := ms.map (fun p => if p.1 = m then (m, score) else p)
          ({ st with zsets := updateA st.zsets k rescored }, Except.ok 0)
        else
          ({ st with zsets := updateA st.zsets k (ms ++ [(m, score)]) },
            Except.ok 1)

/-- Redis ZREM: removes the member; removing the last member deletes the
set key entirely (Redis auto-deletes empty sorted sets). -/
def zrem (st : RedisState) (k : Path) (m : ZMember) : RedisState :=
  match zlookup st k with
  | none => st
  | some ms =>
      let ms2 := ms.filter (fun p => !(decide (p.1 = m)))
      if ms2 = [] then { st with zsets := removeA st.zsets k }
      else { st with zsets := updateA st.zsets k ms2 }

/-- Redis EXISTS, which counts keys of any type: a key exists when a flat
record or a (necessarily non-empty) sorted set is stored at it. -/
def existsKey (st : RedisState) (k : Path) : Bool :=
  (lookupA st.kv k).isSome || (zlookup st k).isSome

/-- Redis SET on a flat record key. -/
def kvSet (st : RedisState) (k : Path) (sd : StorageData) : RedisState :=
  { st with kv := updateA st.kv k sd }

/-- Redis DEL on a flat record key (never an error, even when absent). -/
def kvDel (st : RedisState) (k : Path) : RedisState :=
  { st with kv := removeA st.kv k }

/-- Redis GET on a flat record key. -/
def kvGet (st : RedisState) (k : Path) : Option StorageData :=
  lookupA st.kv k

/-- The configuration fields of the RedisStorage struct that the embedded
operations read.  `keyPfx` is the KeyPrefix field as a component list,
`EncryptionKey` the key bytes (empty means no encryption), `Compression`
the compression flag. -/
structure Config where
  keyPfx : Path
  EncryptionKey : List Nat
  Compression : Bool

/-- prefixKey (storage.go): path.Join of the key prefix and the key. -/
def prefixKey (rs : Config) (key : Path) : Path := rs.keyPfx ++ key

/-- prefixLock (storage.go): the prefixed key under the locks directory. -/
def prefixLock (rs : Config) (name : String) : Path :=
  rs.keyPfx ++ ["locks", name]

/-- aes.BlockSize. -/
def aesBlockSize : Nat := 16

/-- The AES-GCM nonce size used by cipher.NewGCM. -/
def gcmNonceSize : Nat := 12

/-- The AES-GCM authentication tag size. -/
def gcmTagSize : Nat := 16

/-- aes.NewCipher succeeds exactly when the key is 16, 24 or 32 bytes. -/
def aesKeyOk (key : List Nat) : Bool :=
  decide (key.length = 16) || decide (key.length = 24) ||
    decide (key.length = 32)

/-- Model of the AES-GCM keystream: an invertible stream cipher is modelled
as XOR with a pad derived from key and nonce. -/
def gcmPad (key nonce : List Nat) : Nat := (key.sum + nonce.sum) % 256

/-- Model of the GCM authentication tag over a ciphertext: a 16 byte value
derived from key, nonce and ciphertext. -/
def gcmTag (key nonce ct : List Nat) : List Nat :=
  List.replicate gcmTagSize ((key.sum + nonce.sum + ct.sum) % 256)

/-- Model of cipher.AEAD Seal for AES-GCM: the stream-encrypted plaintext
followed by the 16 byte authentication tag, so the output is exactly 16
bytes longer than the input, as documented for GCM. -/
def gcmSeal (key nonce pt : List Nat) : List Nat :=
  let ct := pt.map (fun b => b ^^^ gcmPad key nonce)
  ct ++ gcmTag key nonce ct

/-- Model of cipher.AEAD Open for AES-GCM: rejects inputs shorter than the
tag, verifies the tag, and inverts the stream cipher. -/
def gcmOpen (key nonce data : List Nat) : Except Err (List Nat) :=
  if data.length < gcmTagSize then
    Except.error (Err.msg "message authentication failed")
  else
    let ct := data.take (data.length - gcmTagSize)
    let tag := data.drop (data.length - gcmTagSize)
    if tag = gcmTag key nonce ct then
      Except.ok (ct.map (fun b => b ^^^ gcmPad key nonce))
    else Except.error (Err.msg "message authentication failed")

/-- encrypt (crypto.go lines 11-30).  The source draws a fresh random nonce
from crypto/rand; the model receives the drawn nonce as a parameter.
gcm.Seal is called with the nonce as destination, so the result is the
nonce followed by the sealed payload.  cipher.NewGCM never fails for an AES
block cipher. -/
def encrypt (key nonce value : List Nat) : Except Err (List Nat) :=
  if aesKeyOk key then Except.ok (nonce ++ gcmSeal key nonce value)
  else Except.error (Err.msg "Unable to create AES cipher")

/-- decrypt (crypto.go lines 32-54): rejects inputs shorter than
aes.BlockSize before any slicing, then opens nonce and payload. -/
def decrypt (key data : List Nat) : Except Err (List Nat) :=
  if data.length < aesBlockSize then
    Except.error (Err.msg "Invalid encrypted data")
  else if aesKeyOk key then
    gcmOpen key (data.take gcmNonceSize) (data.drop gcmNonceSize)
  else Except.error (Err.msg "Unable to create AES cipher")

/-- storeDirectoryRecord (storage.go lines 599-625).  Splits the key into
parent directory and base member (with the directory marker when baseIsDir
is set), stops at the root sentinel, inserts the member, and walks to the
parent when the member was newly added or repair mode is on.  As in the
source, the error of the recursive call is discarded. -/
def storeDirectoryRecord (st : RedisState) (key : Path) (score : Int)
    (repair baseIsDir : Bool) : RedisState × Except Err Unit :=
  if h : key.dropLast = [] then (st, Except.ok ())
  else
    let base : ZMember := (key.getLastD "", baseIsDir)
    match zadd st key.dropLast base score with
    | (st1, Except.error _) =>
        (st1, Except.error (Err.msg "Unable to add member to directory set"))
    | (st1, Except.ok success) =>
        if 0 < success ∨ repair = true then
          ((storeDirectoryRecord st1 key.dropLast score repair true).1,
            Except.ok ())
        else (st1, Except.ok ())
termination_by key.length
decreasing_by
  simp only [List.length_dropLast]
  have hk : key ≠ [] := by
    intro he
    exact h (by simp [he])
  have hlen : 0 < key.length := List.length_pos.mpr hk
  omega

/-- deleteDirectoryRecord (storage.go lines 628-649).  Removes the base
member from the parent set and walks upward exactly when the parent key no
longer exists after the removal (Redis deletes a sorted set with its last
member); stops at the root sentinel.  ZREM and the recursive call cannot
fail in the model, so the result is just the state. -/
def deleteDirectoryRecord (st : RedisState) (key : Path) (baseIsDir : Bool) :
    RedisState :=
  if h : key.dropLast = [] then st
  else
    let base : ZMember := (key.getLastD "", baseIsDir)
    let st1 := zrem st key.dropLast base
    if existsKey st1 key.dropLast then st1
    else deleteDirectoryRecord st1 key.dropLast true
termination_by key.length
decreasing_by
  simp only [List.length_dropLast]
  have hk : key ≠ [] := by
    intro he
    exact h (by simp [he])
  have hlen : 0 < key.length := List.length_pos.mpr hk
  omega

/-- Store (storage.go lines 261-317).  `compressFn` stands for the flate
compressor rs.compress, which cannot fail for the default compression
level, `nonce` for the random nonce drawn inside encrypt, and `now` for
time.Now (both the Modified field and the directory score, which the source
takes as the Unix timestamp of the same instant).  json.Marshal of the
record cannot fail and is modelled as the identity. -/
def Store (rs : Config) (compressFn : List Nat → List Nat)
    (nonce : List Nat) (now : Int) (st : RedisState) (key : Path)
    (value : List Nat) : RedisState × Except Err Unit :=
  let size := value.length
  let step1 : List Nat × Nat :=
    if rs.Compression then
      let compressedValue := compressFn value
      if size > compressedValue.length then (compressedValue, 1)
      else (value, 0)
    else (value, 0)
  let step2 : Except Err (List Nat × Nat) :=
    if rs.EncryptionKey = [] then Except.ok (step1.1, 0)
    else
      match encrypt rs.EncryptionKey nonce step1.1 with
      | Except.error _ => Except.error (Err.msg "Unable to encrypt value")
      | Except.ok encryptedValue => Except.ok (encryptedValue, 1)
  match step2 with
  | Except.error e => (st, Except.error e)
  | Except.ok (value2, encryptionFlag) =>
      let sd : StorageData :=
        ⟨value2, now, (size : Int), step1.2, encryptionFlag⟩
      let pk := prefixKey rs key
      match storeDirectoryRecord st pk now false false with
      | (st1, Except.error _) =>
          (st1, Except.error (Err.msg "Unable to create directory for key"))
      | (st1, Except.ok _) => (kvSet st1 pk sd, Except.ok ())

/-- loadStorageData (storage.go lines 581-596): redis.Nil / missing data
becomes fs.ErrNotExist; json.Unmarshal of a record written by Store cannot
fail and is modelled as the identity. -/
def loadStorageData (rs : Config) (st : RedisState) (key : Path) :
    Except Err StorageData :=
  match kvGet st (prefixKey rs key) with
  | none => Except.error Err.notFound
  | some sd => Except.ok sd

/-- Load (storage.go lines 319-348): fetch the record, decrypt when the
encryption flag is set, then uncompress when the compression flag is set.
`uncompressFn` stands for the flate reader rs.uncompress. -/
def Load (rs : Config) (uncompressFn : List Nat → Except Err (List Nat))
    (st : RedisState) (key : Path) : Except Err (List Nat) :=
  match loadStorageData rs st key with
  | Except.error e => Except.error e
  | Except.ok sd =>
      let step1 : Except Err (List Nat) :=
        if 0 < sd.Encryption then
          match decrypt rs.EncryptionKey sd.Value with
          | Except.error _ => Except.error (Err.msg "Unable to decrypt value")
          | Except.ok v => Except.ok v
        else Except.ok sd.Value
      match step1 with
      | Except.error e => Except.error e
      | Except.ok v1 =>
            if 0 < sd.Compression then
              match uncompressFn v1 with
              | Except.error _ =>
                  Except.error (Err.msg "Unable to uncompress value")
              | Except.ok v2 => Except.ok v2
            else Except.ok v1

/-- Delete (storage.go lines 350-364): remove the key from the directory
index, then DEL the flat record.  DEL does not fail on an absent key. -/
def Delete (rs : Config) (st : RedisState) (key : Path) :
    RedisState × Except Err Unit :=
  let pk := prefixKey rs key
  let st1 := deleteDirectoryRecord st pk false
  (kvDel st1 pk, Except.ok ())

/-- certmagic.KeyInfo as filled in by Stat. -/
structure KeyInfo where
  Key : Path
  Modified : Int
  Size : Int
  IsTerminal : Bool
deriving DecidableEq

/-- Stat (storage.go lines 407-420). -/
def Stat (rs : Config) (st : RedisState) (key : Path) :
    Except Err KeyInfo :=
  match loadStorageData rs st key with
  | Except.error e => Except.error e
  | Except.ok sd => Except.ok ⟨key, sd.Modified, sd.Size, true⟩

/-- Unlock (storage.go lines 468-486).  The in-process sync.Map of held
lease handles is an association list keyed by the prefixed lock key; the
handle type and the redislock Release call are abstract parameters.
LoadAndDelete removes the entry whenever it is present, and a Release
failure is reported after the removal; when no handle was held the call is
a no-op returning success. -/
def Unlock {L : Type} (releaseFn : L → Except Err Unit) (rs : Config)
    (locks : List (Path × L)) (name : String) :
    List (Path × L) × Except Err Unit :=
  let key := prefixLock rs name
  match lookupA locks key with
  | none => (locks, Except.ok ())
  | some lock =>
      let locks2 := removeA locks key
      match releaseFn lock with
      | Except.error _ =>
          (locks2, Except.error (Err.msg "Unable to release lock"))
      | Except.ok _ => (locks2, Except.ok ())

/-- The member names of the sorted set stored at a key (the observable
content of a directory entry, ignoring scores). -/
def zmembers (st : RedisState) (k : Path) : List ZMember :=
  ((zlookup st k).getD []).map Prod.fst

/-- The sorted sets created by walking storeDirectoryRecord up from a key
against a store that holds none of the ancestor sets: one singleton set per
proper ancestor.  Used to describe the reachable index states in proofs. -/
def chain (P : Path) (score : Int) (baseIsDir : Bool) :
    List (Path × List (ZMember × Int)) :=
  if h : P.dropLast = [] then []
  else
    (P.dropLast, [((P.getLastD "", baseIsDir), score)]) ::
      chain P.dropLast score true
termination_by P.length
decreasing_by
  simp only [List.length_dropLast]
  have hk : P ≠ [] := by
    intro he
    exact h (by simp [he])
  have hlen : 0 < P.length := List.length_pos.mpr hk
  omega

/-- A concrete lossless compressor with a decompressor, used to instantiate
the compress / uncompress parameters in witnesses (the source delegates to
compress/flate, which is outside this repository).  It shrinks exactly one
input, so both adoption branches of Store are exercised. -/
def toyCompress (v : List Nat) : List Nat :=
  if v = List.replicate 8 7 then [1] else 0 :: v

/-- Inverse of toyCompress; fails on malformed input like a flate reader. -/
def toyUncompress (v : List Nat) : Except Err (List Nat) :=
  if v = [1] then Except.ok (List.replicate 8 7)
  else
    match v with
    | 0 :: rest => Except.ok rest
    | _ => Except.error (Err.msg "flate malformed input")

/-- Concrete configuration without compression or encryption. -/
def cfgPlain : Config := ⟨["caddy"], [], false⟩

/-- Concrete configuration with compression and a 32 byte key. -/
def cfgFull : Config := ⟨["caddy"], List.replicate 32 1, true⟩

/-- A concrete 12 byte nonce. -/
def nonce12 : List Nat := List.replicate 12 0

/-! ### Association list lemmas -/

lemma lookupA_update_self {β : Type} (l : List (Path × β)) (k : Path)
    (v : β) : lookupA (updateA l k v) k = some v := by
  induction l with
  | nil => simp [updateA, lookupA]
  | cons p rest ih =>
      by_cases hp : p.1 = k
      · simp [updateA, lookupA, hp]
      · cases p with
        | mk pk pv =>
            simp only at hp
            simp [updateA, lookupA, hp, ih]

lemma lookupA_update_ne {β : Type} (l : List (Path × β)) (k q : Path)
    (v : β) (h : k ≠ q) : lookupA (updateA l k v) q = lookupA l q := by
  induction l with
  | nil => simp [updateA, lookupA, h]
  | cons p rest ih =>
      cases p with
      | mk pk pv =>
          by_cases hp : pk = k
          · simp [updateA, lookupA, hp, h]
          · simp [updateA, lookupA, hp, ih]

lemma lookupA_append_of_none {β : Type} (l1 l2 : List (Path × β))
    (q : Path) (h : lookupA l1 q = none) :
    lookupA (l1 ++ l2) q = lookupA l2 q := by
  induction l1 with
  | nil => simp
  | cons p rest ih =>
      cases p with
      | mk pk pv =>
          by_cases hp : pk = q
          · simp [lookupA, hp] at h
          · simp only [lookupA, hp] at h
            simp [lookupA, hp, ih h]

lemma lookupA_append_of_some {β : Type} (l1 l2 : List (Path × β))
    (q : Path) (v : β) (h : lookupA l1 q = some v) :
    lookupA (l1 ++ l2) q = some v := by
  induction l1 with
  | nil => simp [lookupA] at h
  | cons p rest ih =>
      cases p with
      | mk pk pv =>
          by_cases hp : pk = q
          · simp only [lookupA, hp, if_pos rfl] at h ⊢
            exact h
          · simp only [lookupA, hp] at h
            simp [lookupA, hp, ih h]

lemma lookupA_eq_none {β : Type} (l : List (Path × β)) (q : Path)
    (h : ∀ p ∈ l, p.1 ≠ q) : lookupA l q = none := by
  induction l with
  | nil => simp [lookupA]
  | cons p rest ih =>
      cases p with
      | mk pk pv =>
          have h1 : pk ≠ q := h (pk, pv) (List.mem_cons_self _ _)
          have h2 : lookupA rest q = none :=
            ih (fun p hp => h p (List.mem_cons_of_mem _ hp))
          simp [lookupA, h1, h2]

lemma removeA_eq_self {β : Type} (l : List (Path × β)) (q : Path)
    (h : ∀ p ∈ l, p.1 ≠ q) : removeA l q = l := by
  induction l with
  | nil => simp [removeA]
  | cons p rest ih =>
      cases p with
      | mk pk pv =>
          have h1 : pk ≠ q := h (pk, pv) (List.mem_cons_self _ _)
          have h2 : removeA rest q = rest :=
            ih (fun p hp => h p (List.mem_cons_of_mem _ hp))
          simp [removeA, h1, h2]

lemma removeA_cons_self {β : Type} (l : List (Path × β)) (q : Path)
    (v : β) : removeA ((q, v) :: l) q = removeA l q := by
  simp [removeA]

lemma lookupA_removeA_ne {β : Type} (l : List (Path × β)) (q k2 : Path)
    (h : k2 ≠ q) : lookupA (removeA l q) k2 = lookupA l k2 := by
  induction l with
  | nil => simp [removeA]
  | cons p rest ih =>
      cases p with
      | mk pk pv =>
          by_cases hp : pk = q
          · have hpk : ¬ pk = k2 := by
              rw [hp]
              exact fun hc => h hc.symm
            have hqk : ¬ q = k2 := fun hc => h hc.symm
            simp [removeA, lookupA, hp, hpk, hqk, ih]
          · simp only [removeA, if_neg hp, lookupA]
            by_cases hk : pk = k2
            · simp [hk]
            · simp [hk, ih]

lemma lookupA_removeA_self {β : Type} (l : List (Path × β)) (q : Path) :
    lookupA (removeA l q) q = none := by
  induction l with
  | nil => simp [removeA, lookupA]
  | cons p rest ih =>
      cases p with
      | mk pk pv =>
          by_cases hp : pk = q
          · simp [removeA, hp, ih]
          · simp [removeA, lookupA, hp, ih]

/-! ### Round-trip facts for the modelled library primitives -/

lemma toy_roundtrip : ∀ v, toyUncompress (toyCompress v) = Except.ok v := by
  intro v
  by_cases hv : v = List.replicate 8 7
  · simp [toyCompress, toyUncompress, hv]
  · simp only [toyCompress, if_neg hv, toyUncompress]
    have h1 : (0 :: v : List Nat) ≠ [1] := by simp
    simp [h1]

lemma xor_pad_cancel (b p : Nat) : (b ^^^ p) ^^^ p = b := by
  rw [Nat.xor_assoc, Nat.xor_self, Nat.xor_zero]

lemma gcmOpen_gcmSeal (key nonce pt : List Nat) :
    gcmOpen key nonce (gcmSeal key nonce pt) = Except.ok pt := by
  unfold gcmSeal gcmOpen
  simp only []
  set ct := pt.map (fun b => b ^^^ gcmPad key nonce) with hct
  have hctlen : ct.length = pt.length := by simp [hct]
  have htaglen : (gcmTag key nonce ct).length = gcmTagSize := by
    simp [gcmTag]
  have hlen : (ct ++ gcmTag key nonce ct).length = pt.length + gcmTagSize := by
    simp [hctlen, htaglen]
  have hnotlt : ¬ (ct ++ gcmTag key nonce ct).length < gcmTagSize := by
    omega
  rw [if_neg hnotlt]
  have hsub : (ct ++ gcmTag key nonce ct).length - gcmTagSize = ct.length := by
    omega
  rw [hsub]
  rw [List.take_left, List.drop_left]
  rw [if_pos rfl]
  congr 1
  rw [hct, List.map_map]
  have : ((fun b => b ^^^ gcmPad key nonce) ∘
      fun b => b ^^^ gcmPad key nonce) = id := by
    funext b
    simp [Function.comp, xor_pad_cancel]
  rw [this, List.map_id]

lemma decrypt_encrypt (key nonce value enc : List Nat)
    (hkey : aesKeyOk key = true) (hnonce : nonce.length = gcmNonceSize)
    (henc : encrypt key nonce value = Except.ok enc) :
    decrypt key enc = Except.ok value := by
  unfold encrypt at henc
  rw [if_pos hkey] at henc
  injection henc with henc
  subst henc
  unfold decrypt
  have hslen : (gcmSeal key nonce value).length = value.length + gcmTagSize := by
    simp [gcmSeal, gcmTag]
  have hlen : (nonce ++ gcmSeal key nonce value).length =
      gcmNonceSize + value.length + gcmTagSize := by
    simp [hnonce, hslen]
    omega
  have hnotlt : ¬ (nonce ++ gcmSeal key nonce value).length < aesBlockSize := by
    rw [hlen]
    unfold gcmNonceSize gcmTagSize aesBlockSize
    omega
  rw [if_neg hnotlt, if_pos hkey]
  rw [← hnonce, List.take_left, List.drop_left]
  exact gcmOpen_gcmSeal key nonce value

/-! ### Case equations and observations for the modelled Redis commands -/

lemma zadd_fail (st : RedisState) (k : Path) (m : ZMember) (s : Int)
    (hf : k ∈ st.zaddFailing) :
    zadd st k m s = (st, Except.error (Err.msg "zadd network error")) := by
  unfold zadd
  rw [if_pos hf]

lemma zadd_none (st : RedisState) (k : Path) (m : ZMember) (s : Int)
    (hf : k ∉ st.zaddFailing) (hz : zlookup st k = none) :
    zadd st k m s =
      ({ st with zsets := st.zsets ++ [(k, [(m, s)])] }, Except.ok 1) := by
  unfold zadd
  rw [if_neg hf, hz]

lemma zadd_dup (st : RedisState) (k : Path) (m : ZMember) (s : Int)
    (ms : List (ZMember × Int)) (hf : k ∉ st.zaddFailing)
    (hz : zlookup st k = some ms)
    (ha : ms.any (fun p => decide (p.1 = m)) = true) :
    zadd st k m s =
      ({ st with zsets := updateA st.zsets k (ms.map (fun p => if p.1 = m then (m, s) else p)) }, Except.ok 0) := by
  unfold zadd
  rw [if_neg hf, hz]
  simp [ha]

lemma zadd_new (st : RedisState) (k : Path) (m : ZMember) (s : Int)
    (ms : List (ZMember × Int)) (hf : k ∉ st.zaddFailing)
    (hz : zlookup st k = some ms)
    (ha : ms.any (fun p => decide (p.1 = m)) = false) :
    zadd st k m s =
      ({ st with zsets := updateA st.zsets k (ms ++ [(m, s)]) },
        Except.ok 1) := by
  unfold zadd
  rw [if_neg hf, hz]
  simp [ha]

lemma zrem_none (st : RedisState) (k : Path) (m : ZMember)
    (hz : zlookup st k = none) : zrem st k m = st := by
  unfold zrem
  rw [hz]

lemma zrem_last (st : RedisState) (k : Path) (m : ZMember)
    (ms : List (ZMember × Int)) (hz : zlookup st k = some ms)
    (he : ms.filter (fun p => !(decide (p.1 = m))) = []) :
    zrem st k m = { st with zsets := removeA st.zsets k } := by
  unfold zrem
  rw [hz]
  simp [he]

lemma zrem_keep (st : RedisState) (k : Path) (m : ZMember)
    (ms : List (ZMember × Int)) (hz : zlookup st k = some ms)
    (he : ms.filter (fun p => !(decide (p.1 = m))) ≠ []) :
    zrem st k m =
      { st with zsets :=
          updateA st.zsets k (ms.filter (fun p => !(decide (p.1 = m)))) } := by
  unfold zrem
  rw [hz]
  simp [he]

lemma zadd_kv (st : RedisState) (k : Path) (m : ZMember) (s : Int) :
    ((zadd st k m s).1).kv = st.kv := by
  by_cases hf : k ∈ st.zaddFailing
  · rw [zadd_fail st k m s hf]
  · cases hz : zlookup st k with
    | none => rw [zadd_none st k m s hf hz]
    | some ms =>
        cases ha : ms.any (fun p => decide (p.1 = m)) with
        | true => rw [zadd_dup st k m s ms hf hz ha]
        | false => rw [zadd_new st k m s ms hf hz ha]

lemma zadd_failing (st : RedisState) (k : Path) (m : ZMember) (s : Int) :
    ((zadd st k m s).1).zaddFailing = st.zaddFailing := by
  by_cases hf : k ∈ st.zaddFailing
  · rw [zadd_fail st k m s hf]
  · cases hz : zlookup st k with
    | none => rw [zadd_none st k m s hf hz]
    | some ms =>
        cases ha : ms.any (fun p => decide (p.1 = m)) with
        | true => rw [zadd_dup st k m s ms hf hz ha]
        | false => rw [zadd_new st k m s ms hf hz ha]

lemma zadd_ok (st : RedisState) (k : Path) (m : ZMember) (s : Int)
    (hf : k ∉ st.zaddFailing) :
    ∃ st1 n, zadd st k m s = (st1, Except.ok n) := by
  cases hz : zlookup st k with
  | none => exact ⟨_, _, zadd_none st k m s hf hz⟩
  | some ms =>
      cases ha : ms.any (fun p => decide (p.1 = m)) with
      | true => exact ⟨_, _, zadd_dup st k m s ms hf hz ha⟩
      | false => exact ⟨_, _, zadd_new st k m s ms hf hz ha⟩

lemma zadd_mem_self (st : RedisState) (k : Path) (m : ZMember) (s : Int)
    (hf : k ∉ st.zaddFailing) : m ∈ zmembers ((zadd st k m s).1) k := by
  cases hz : zlookup st k with
  | none =>
      rw [zadd_none st k m s hf hz]
      unfold zmembers zlookup
      rw [lookupA_append_of_none _ _ _ hz]
      simp [lookupA]
  | some ms =>
      cases ha : ms.any (fun p => decide (p.1 = m)) with
      | true =>
          rw [zadd_dup st k m s ms hf hz ha]
          unfold zmembers zlookup
          rw [lookupA_update_self]
          simp only [Option.getD_some]
          rw [List.any_eq_true] at ha
          obtain ⟨p, hp, hpm⟩ := ha
          simp only [decide_eq_true_eq] at hpm
          refine List.mem_map.mpr ⟨(m, s), List.mem_map.mpr ⟨p, hp, ?_⟩, rfl⟩
          simp [hpm]
      | false =>
          rw [zadd_new st k m s ms hf hz ha]
          unfold zmembers zlookup
          rw [lookupA_update_self]
          simp

lemma mem_zmembers_iff (st : RedisState) (k : Path) (m : ZMember) :
    m ∈ zmembers st k ↔
      ∃ ms, zlookup st k = some ms ∧ m ∈ ms.map Prod.fst := by
  constructor
  · intro h
    unfold zmembers at h
    cases hz : zlookup st k with
    | none => rw [hz] at h; simp at h
    | some ms =>
        rw [hz] at h
        exact ⟨ms, rfl, by simpa using h⟩
  · intro ⟨ms, hms, hmem⟩
    unfold zmembers
    rw [hms]
    simpa using hmem

lemma zadd_mem_mono (st : RedisState) (k k2 : Path) (m m2 : ZMember)
    (s : Int) (h : m2 ∈ zmembers st k2) :
    m2 ∈ zmembers ((zadd st k m s).1) k2 := by
  obtain ⟨ms2, hms2, hmem⟩ := (mem_zmembers_iff st k2 m2).mp h
  by_cases hf : k ∈ st.zaddFailing
  · rw [zadd_fail st k m s hf]
    exact h
  · cases hz : zlookup st k with
    | none =>
        rw [zadd_none st k m s hf hz]
        apply (mem_zmembers_iff _ _ _).mpr
        refine ⟨ms2, ?_, hmem⟩
        unfold zlookup at hms2 ⊢
        exact lookupA_append_of_some _ _ _ _ hms2
    | some ms =>
        by_cases hk2 : k2 = k
        · subst hk2
          have hms : ms2 = ms := by
            rw [hz] at hms2
            exact (Option.some.inj hms2).symm
          subst hms
          cases ha : ms2.any (fun p => decide (p.1 = m)) with
          | true =>
              rw [zadd_dup st k2 m s ms2 hf hz ha]
              apply (mem_zmembers_iff _ _ _).mpr
              refine ⟨ms2.map (fun p => if p.1 = m then (m, s) else p), ?_, ?_⟩
              · unfold zlookup
                simp only []
                exact lookupA_update_self _ _ _
              · obtain ⟨p, hp, hpm⟩ := List.mem_map.mp hmem
                refine List.mem_map.mpr
                  ⟨if p.1 = m then (m, s) else p,
                    List.mem_map.mpr ⟨p, hp, rfl⟩, ?_⟩
                by_cases hc : p.1 = m
                · have hm : m = m2 := by rw [← hc, hpm]
                  simp [hc, hm]
                · rw [if_neg hc]
                  exact hpm
          | false =>
              rw [zadd_new st k2 m s ms2 hf hz ha]
              apply (mem_zmembers_iff _ _ _).mpr
              refine ⟨ms2 ++ [(m, s)], ?_, ?_⟩
              · unfold zlookup
                simp only []
                exact lookupA_update_self _ _ _
              · simp only [List.map_append]
                exact List.mem_append_left _ hmem
        · have hne : k ≠ k2 := fun hc => hk2 hc.symm
          cases ha : ms.any (fun p => decide (p.1 = m)) with
          | true =>
              rw [zadd_dup st k m s ms hf hz ha]
              apply (mem_zmembers_iff _ _ _).mpr
              refine ⟨ms2, ?_, hmem⟩
              unfold zlookup at hms2 ⊢
              rw [lookupA_update_ne _ _ _ _ hne]
              exact hms2
          | false =>
              rw [zadd_new st k m s ms hf hz ha]
              apply (mem_zmembers_iff _ _ _).mpr
              refine ⟨ms2, ?_, hmem⟩
              unfold zlookup at hms2 ⊢
              rw [lookupA_update_ne _ _ _ _ hne]
              exact hms2

lemma zadd_existing_names (st : RedisState) (k : Path) (m : ZMember)
    (s : Int) (h : m ∈ zmembers st k) :
    ∀ k2, zmembers ((zadd st k m s).1) k2 = zmembers st k2 := by
  intro k2
  by_cases hf : k ∈ st.zaddFailing
  · rw [zadd_fail st k m s hf]
  · obtain ⟨ms, hms, hmem⟩ := (mem_zmembers_iff st k m).mp h
    have ha : ms.any (fun p => decide (p.1 = m)) = true := by
      rw [List.any_eq_true]
      obtain ⟨p, hp, hpm⟩ := List.mem_map.mp hmem
      exact ⟨p, hp, by simp [hpm]⟩
    rw [zadd_dup st k m s ms hf hms ha]
    by_cases hk2 : k2 = k
    · subst hk2
      unfold zmembers zlookup
      rw [lookupA_update_self]
      unfold zlookup at hms
      rw [hms]
      simp only [Option.getD_some, List.map_map]
      apply List.map_congr_left
      intro p hp
      by_cases hc : p.1 = m
      · simp [Function.comp, hc]
      · simp [Function.comp, hc]
    · have hne : k ≠ k2 := fun hc => hk2 hc.symm
      unfold zmembers zlookup
      rw [lookupA_update_ne _ _ _ _ hne]

lemma zrem_kv (st : RedisState) (k : Path) (m : ZMember) :
    (zrem st k m).kv = st.kv := by
  cases hz : zlookup st k with
  | none => rw [zrem_none st k m hz]
  | some ms =>
      by_cases he : ms.filter (fun p => !(decide (p.1 = m))) = []
      · rw [zrem_last st k m ms hz he]
      · rw [zrem_keep st k m ms hz he]

lemma zrem_failing (st : RedisState) (k : Path) (m : ZMember) :
    (zrem st k m).zaddFailing = st.zaddFailing := by
  cases hz : zlookup st k with
  | none => rw [zrem_none st k m hz]
  | some ms =>
      by_cases he : ms.filter (fun p => !(decide (p.1 = m))) = []
      · rw [zrem_last st k m ms hz he]
      · rw [zrem_keep st k m ms hz he]

lemma zrem_zmembers_ne (st : RedisState) (k k2 : Path) (m : ZMember)
    (h : k2 ≠ k) : zmembers (zrem st k m) k2 = zmembers st k2 := by
  cases hz : zlookup st k with
  | none => rw [zrem_none st k m hz]
  | some ms =>
      by_cases he : ms.filter (fun p => !(decide (p.1 = m))) = []
      · rw [zrem_last st k m ms hz he]
        unfold zmembers zlookup
        rw [lookupA_removeA_ne _ _ _ h]
      · rw [zrem_keep st k m ms hz he]
        unfold zmembers zlookup
        rw [lookupA_update_ne _ _ _ _ (fun hc => h hc.symm)]

lemma zrem_not_mem (st : RedisState) (k : Path) (m : ZMember) :
    m ∉ zmembers (zrem st k m) k := by
  cases hz : zlookup st k with
  | none =>
      rw [zrem_none st k m hz]
      unfold zmembers
      rw [hz]
      simp
  | some ms =>
      by_cases he : ms.filter (fun p => !(decide (p.1 = m))) = []
      · rw [zrem_last st k m ms hz he]
        unfold zmembers zlookup
        rw [lookupA_removeA_self]
        simp
      · rw [zrem_keep st k m ms hz he]
        unfold zmembers zlookup
        rw [lookupA_update_self]
        simp only [Option.getD_some]
        intro hc
        obtain ⟨p, hp, hpm⟩ := List.mem_map.mp hc
        have := List.of_mem_filter hp
        simp [hpm] at this

/-! ### The insertion walk storeDirectoryRecord -/

lemma sdr_nil (st : RedisState) (key : Path) (s : Int) (r b : Bool)
    (h : key.dropLast = []) :
    storeDirectoryRecord st key s r b = (st, Except.ok ()) := by
  rw [storeDirectoryRecord]
  simp [h]

lemma sdr_step_err (st st1 : RedisState) (key : Path) (s : Int) (r b : Bool)
    (e : Err) (h : key.dropLast ≠ [])
    (hz : zadd st key.dropLast (key.getLastD "", b) s =
      (st1, Except.error e)) :
    storeDirectoryRecord st key s r b =
      (st1, Except.error (Err.msg "Unable to add member to directory set")) := by
  rw [storeDirectoryRecord]
  simp only [dif_neg h]
  rw [hz]

lemma sdr_step_rec (st st1 : RedisState) (key : Path) (s : Int) (r b : Bool)
    (n : Nat) (h : key.dropLast ≠ [])
    (hz : zadd st key.dropLast (key.getLastD "", b) s = (st1, Except.ok n))
    (hn : 0 < n ∨ r = true) :
    storeDirectoryRecord st key s r b =
      ((storeDirectoryRecord st1 key.dropLast s r true).1, Except.ok ()) := by
  rw [storeDirectoryRecord]
  simp only [dif_neg h]
  rw [hz]
  simp [hn]

lemma sdr_step_stop (st st1 : RedisState) (key : Path) (s : Int) (r b : Bool)
    (n : Nat) (h : key.dropLast ≠ [])
    (hz : zadd st key.dropLast (key.getLastD "", b) s = (st1, Except.ok n))
    (hn : ¬ (0 < n ∨ r = true)) :
    storeDirectoryRecord st key s r b = (st1, Except.ok ()) := by
  rw [storeDirectoryRecord]
  simp only [dif_neg h]
  rw [hz]
  simp [hn]

lemma sdr_kv (key : Path) : ∀ (st : RedisState) (s : Int) (r b : Bool),
    ((storeDirectoryRecord st key s r b).1).kv = st.kv := by
  induction key using List.reverseRecOn with
  | nil =>
      intro st s r b
      rw [sdr_nil st [] s r b rfl]
  | append_singleton Q a ih =>
      intro st s r b
      have hd : (Q ++ [a]).dropLast = Q := List.dropLast_concat
      by_cases hQ : Q = []
      · rw [sdr_nil st (Q ++ [a]) s r b (by rw [hd, hQ])]
      · have h : (Q ++ [a]).dropLast ≠ [] := by rw [hd]; exact hQ
        rcases hz : zadd st (Q ++ [a]).dropLast ((Q ++ [a]).getLastD "", b) s
          with ⟨st1, res⟩
        have hst1 : st1.kv = st.kv := by
          have h2 := zadd_kv st (Q ++ [a]).dropLast ((Q ++ [a]).getLastD "", b) s
          rw [hz] at h2
          exact h2
        cases res with
        | error e => rw [sdr_step_err st st1 (Q ++ [a]) s r b e h hz]; exact hst1
        | ok n =>
            by_cases hn : 0 < n ∨ r = true
            · rw [sdr_step_rec st st1 (Q ++ [a]) s r b n h hz hn, hd]
              rw [ih st1 s r true]
              exact hst1
            · rw [sdr_step_stop st st1 (Q ++ [a]) s r b n h hz hn]
              exact hst1

lemma sdr_failing (key : Path) : ∀ (st : RedisState) (s : Int) (r b : Bool),
    ((storeDirectoryRecord st key s r b).1).zaddFailing = st.zaddFailing := by
  induction key using List.reverseRecOn with
  | nil =>
      intro st s r b
      rw [sdr_nil st [] s r b rfl]
  | append_singleton Q a ih =>
      intro st s r b
      have hd : (Q ++ [a]).dropLast = Q := List.dropLast_concat
      by_cases hQ : Q = []
      · rw [sdr_nil st (Q ++ [a]) s r b (by rw [hd, hQ])]
      · have h : (Q ++ [a]).dropLast ≠ [] := by rw [hd]; exact hQ
        rcases hz : zadd st (Q ++ [a]).dropLast ((Q ++ [a]).getLastD "", b) s
          with ⟨st1, res⟩
        have hst1 : st1.zaddFailing = st.zaddFailing := by
          have h2 := zadd_failing st (Q ++ [a]).dropLast
            ((Q ++ [a]).getLastD "", b) s
          rw [hz] at h2
          exact h2
        cases res with
        | error e => rw [sdr_step_err st st1 (Q ++ [a]) s r b e h hz]; exact hst1
        | ok n =>
            by_cases hn : 0 < n ∨ r = true
            · rw [sdr_step_rec st st1 (Q ++ [a]) s r b n h hz hn, hd]
              rw [ih st1 s r true]
              exact hst1
            · rw [sdr_step_stop st st1 (Q ++ [a]) s r b n h hz hn]
              exact hst1

lemma sdr_ok (st : RedisState) (key : Path) (s : Int) (r b : Bool)
    (hf : st.zaddFailing = []) :
    (storeDirectoryRecord st key s r b).2 = Except.ok () := by
  by_cases h : key.dropLast = []
  · rw [sdr_nil st key s r b h]
  · have hnf : key.dropLast ∉ st.zaddFailing := by rw [hf]; simp
    obtain ⟨st1, n, hz⟩ := zadd_ok st key.dropLast (key.getLastD "", b) s hnf
    by_cases hn : 0 < n ∨ r = true
    · rw [sdr_step_rec st st1 key s r b n h hz hn]
    · rw [sdr_step_stop st st1 key s r b n h hz hn]

lemma sdr_mem_mono (key : Path) :
    ∀ (st : RedisState) (s : Int) (r b : Bool) (k2 : Path) (m2 : ZMember),
    m2 ∈ zmembers st k2 →
    m2 ∈ zmembers ((storeDirectoryRecord st key s r b).1) k2 := by
  induction key using List.reverseRecOn with
  | nil =>
      intro st s r b k2 m2 hm
      rw [sdr_nil st [] s r b rfl]
      exact hm
  | append_singleton Q a ih =>
      intro st s r b k2 m2 hm
      have hd : (Q ++ [a]).dropLast = Q := List.dropLast_concat
      by_cases hQ : Q = []
      · rw [sdr_nil st (Q ++ [a]) s r b (by rw [hd, hQ])]
        exact hm
      · have h : (Q ++ [a]).dropLast ≠ [] := by rw [hd]; exact hQ
        rcases hz : zadd st (Q ++ [a]).dropLast ((Q ++ [a]).getLastD "", b) s
          with ⟨st1, res⟩
        have hst1 : m2 ∈ zmembers st1 k2 := by
          have h2 := zadd_mem_mono st (Q ++ [a]).dropLast k2
            ((Q ++ [a]).getLastD "", b) m2 s hm
          rw [hz] at h2
          exact h2
        cases res with
        | error e => rw [sdr_step_err st st1 (Q ++ [a]) s r b e h hz]; exact hst1
        | ok n =>
            by_cases hn : 0 < n ∨ r = true
            · rw [sdr_step_rec st st1 (Q ++ [a]) s r b n h hz hn, hd]
              exact ih st1 s r true k2 m2 hst1
            · rw [sdr_step_stop st st1 (Q ++ [a]) s r b n h hz hn]
              exact hst1

lemma sdr_inserts (st : RedisState) (key : Path) (s : Int) (r b : Bool)
    (hf : st.zaddFailing = []) (h : key.dropLast ≠ []) :
    (key.getLastD "", b) ∈
      zmembers ((storeDirectoryRecord st key s r b).1) key.dropLast := by
  have hnf : key.dropLast ∉ st.zaddFailing := by rw [hf]; simp
  obtain ⟨st1, n, hz⟩ := zadd_ok st key.dropLast (key.getLastD "", b) s hnf
  have hmem : (key.getLastD "", b) ∈ zmembers st1 key.dropLast := by
    have h2 := zadd_mem_self st key.dropLast (key.getLastD "", b) s hnf
    rw [hz] at h2
    exact h2
  by_cases hn : 0 < n ∨ r = true
  · rw [sdr_step_rec st st1 key s r b n h hz hn]
    exact sdr_mem_mono key.dropLast st1 s r true key.dropLast _ hmem
  · rw [sdr_step_stop st st1 key s r b n h hz hn]
    exact hmem

/-! ### The index states built by a fresh insertion walk -/

lemma chain_nil (P : Path) (s : Int) (b : Bool) (h : P.dropLast = []) :
    chain P s b = [] := by
  rw [chain]
  simp [h]

lemma chain_cons (P : Path) (s : Int) (b : Bool) (h : P.dropLast ≠ []) :
    chain P s b =
      (P.dropLast, [((P.getLastD "", b), s)]) :: chain P.dropLast s true := by
  rw [chain]
  simp [h]

lemma chain_keys_length (P : Path) :
    ∀ (s : Int) (b : Bool) (Q : Path) (ms : List (ZMember × Int)),
    (Q, ms) ∈ chain P s b → Q.length < P.length := by
  induction P using List.reverseRecOn with
  | nil =>
      intro s b Q ms hm
      rw [chain_nil [] s b rfl] at hm
      simp at hm
  | append_singleton R a ih =>
      intro s b Q ms hm
      have hd : (R ++ [a]).dropLast = R := List.dropLast_concat
      by_cases hR : R = []
      · rw [chain_nil (R ++ [a]) s b (by rw [hd, hR])] at hm
        simp at hm
      · rw [chain_cons (R ++ [a]) s b (by rw [hd]; exact hR)] at hm
        rw [hd] at hm
        have hlen : (R ++ [a]).length = R.length + 1 := by simp
        rcases List.mem_cons.mp hm with hhead | htail
        · have : Q = R := congrArg Prod.fst hhead
          rw [this, hlen]
          omega
        · have := ih s true Q ms htail
          omega

lemma lookupA_chain_none (P Q : Path) (s : Int) (b : Bool)
    (h : P.length ≤ Q.length) : lookupA (chain P s b) Q = none := by
  apply lookupA_eq_none
  intro p hp
  intro hc
  have := chain_keys_length P s b p.1 p.2 (by rw [Prod.mk.eta]; exact hp)
  rw [hc] at this
  omega

lemma state_zsets_nil (st : RedisState) (h : st.zsets = []) :
    { st with zsets := ([] : List (Path × List (ZMember × Int))) } = st := by
  cases st
  simp_all

lemma sdr_fresh (P : Path) : ∀ (st : RedisState) (s : Int) (b : Bool),
    st.zaddFailing = [] →
    (∀ Q, Q.length < P.length → lookupA st.zsets Q = none) →
    storeDirectoryRecord st P s false b =
      ({ st with zsets := st.zsets ++ chain P s b }, Except.ok ()) := by
  induction P using List.reverseRecOn with
  | nil =>
      intro st s b _ _
      rw [sdr_nil st [] s false b rfl, chain_nil [] s b rfl]
      rw [List.append_nil]
  | append_singleton Q a ih =>
      intro st s b hf hfresh
      have hd : (Q ++ [a]).dropLast = Q := List.dropLast_concat
      have hg : (Q ++ [a]).getLastD "" = a := List.getLastD_concat _ _ _
      have hlen : (Q ++ [a]).length = Q.length + 1 := by simp
      by_cases hQ : Q = []
      · rw [sdr_nil st (Q ++ [a]) s false b (by rw [hd, hQ])]
        rw [chain_nil (Q ++ [a]) s b (by rw [hd, hQ])]
        rw [List.append_nil]
      · have h : (Q ++ [a]).dropLast ≠ [] := by rw [hd]; exact hQ
        have hnf : (Q ++ [a]).dropLast ∉ st.zaddFailing := by rw [hf]; simp
        have hlook : zlookup st (Q ++ [a]).dropLast = none := by
          rw [hd]
          exact hfresh Q (by omega)
        have hz := zadd_none st (Q ++ [a]).dropLast
          ((Q ++ [a]).getLastD "", b) s hnf hlook
        rw [sdr_step_rec st _ (Q ++ [a]) s false b 1 h hz (Or.inl one_pos)]
        rw [hd, hg]
        have hfresh1 : ∀ R, R.length < Q.length →
            lookupA (st.zsets ++ [(Q, [(((a : String), b), s)])]) R = none := by
          intro R hR
          have h0 : lookupA st.zsets R = none := hfresh R (by omega)
          rw [lookupA_append_of_none _ _ _ h0]
          have hne : Q ≠ R := by
            intro hc
            rw [hc] at hR
            omega
          simp [lookupA, hne]
        have hih := ih { st with zsets := st.zsets ++ [(Q, [((a, b), s)])] }
          s true (by simp [hf]) hfresh1
        rw [hih]
        rw [chain_cons (Q ++ [a]) s b (by rw [hd]; exact hQ), hd, hg]
        simp [List.append_assoc]

/-! ### The deletion walk deleteDirectoryRecord -/

lemma ddr_nil (st : RedisState) (key : Path) (b : Bool)
    (h : key.dropLast = []) : deleteDirectoryRecord st key b = st := by
  rw [deleteDirectoryRecord]
  simp [h]

lemma ddr_step_stop (st : RedisState) (key : Path) (b : Bool)
    (h : key.dropLast ≠ [])
    (hex : existsKey (zrem st key.dropLast (key.getLastD "", b))
      key.dropLast = true) :
    deleteDirectoryRecord st key b =
      zrem st key.dropLast (key.getLastD "", b) := by
  rw [deleteDirectoryRecord]
  simp only [dif_neg h]
  rw [if_pos hex]

lemma ddr_step_rec (st : RedisState) (key : Path) (b : Bool)
    (h : key.dropLast ≠ [])
    (hex : existsKey (zrem st key.dropLast (key.getLastD "", b))
      key.dropLast = false) :
    deleteDirectoryRecord st key b =
      deleteDirectoryRecord (zrem st key.dropLast (key.getLastD "", b))
        key.dropLast true := by
  rw [deleteDirectoryRecord]
  simp only [dif_neg h]
  rw [if_neg (by rw [hex]; simp)]

lemma ddr_kv (key : Path) : ∀ (st : RedisState) (b : Bool),
    (deleteDirectoryRecord st key b).kv = st.kv := by
  induction key using List.reverseRecOn with
  | nil =>
      intro st b
      rw [ddr_nil st [] b rfl]
  | append_singleton Q a ih =>
      intro st b
      have hd : (Q ++ [a]).dropLast = Q := List.dropLast_concat
      by_cases hQ : Q = []
      · rw [ddr_nil st (Q ++ [a]) b (by rw [hd, hQ])]
      · have h : (Q ++ [a]).dropLast ≠ [] := by rw [hd]; exact hQ
        cases hex : existsKey
            (zrem st (Q ++ [a]).dropLast ((Q ++ [a]).getLastD "", b))
            (Q ++ [a]).dropLast with
        | true =>
            rw [ddr_step_stop st (Q ++ [a]) b h hex]
            exact zrem_kv st _ _
        | false =>
            rw [ddr_step_rec st (Q ++ [a]) b h hex, hd]
            rw [ih _ true]
            exact zrem_kv st _ _

lemma ddr_zmembers_long (key : Path) : ∀ (st : RedisState) (b : Bool)
    (R : Path), key.length ≤ R.length →
    zmembers (deleteDirectoryRecord st key b) R = zmembers st R := by
  induction key using List.reverseRecOn with
  | nil =>
      intro st b R _
      rw [ddr_nil st [] b rfl]
  | append_singleton Q a ih =>
      intro st b R hR
      have hd : (Q ++ [a]).dropLast = Q := List.dropLast_concat
      have hlen : (Q ++ [a]).length = Q.length + 1 := by simp
      by_cases hQ : Q = []
      · rw [ddr_nil st (Q ++ [a]) b (by rw [hd, hQ])]
      · have h : (Q ++ [a]).dropLast ≠ [] := by rw [hd]; exact hQ
        have hne : R ≠ Q := by
          intro hc
          rw [hc] at hR
          omega
        have hne2 : R ≠ (Q ++ [a]).dropLast := by rw [hd]; exact hne
        cases hex : existsKey
            (zrem st (Q ++ [a]).dropLast ((Q ++ [a]).getLastD "", b))
            (Q ++ [a]).dropLast with
        | true =>
            rw [ddr_step_stop st (Q ++ [a]) b h hex]
            exact zrem_zmembers_ne st _ R _ hne2
        | false =>
            rw [ddr_step_rec st (Q ++ [a]) b h hex, hd]
            rw [ih _ true R (by omega)]
            exact zrem_zmembers_ne st _ R _ hne

lemma ddr_removed (st : RedisState) (key : Path) (b : Bool)
    (h : key.dropLast ≠ []) :
    (key.getLastD "", b) ∉
      zmembers (deleteDirectoryRecord st key b) key.dropLast := by
  have hnot := zrem_not_mem st key.dropLast (key.getLastD "", b)
  cases hex : existsKey (zrem st key.dropLast (key.getLastD "", b))
      key.dropLast with
  | true =>
      rw [ddr_step_stop st key b h hex]
      exact hnot
  | false =>
      rw [ddr_step_rec st key b h hex]
      rw [ddr_zmembers_long key.dropLast _ true key.dropLast (le_refl _)]
      exact hnot

lemma ddr_chain (P : Path) : ∀ (st : RedisState) (s : Int) (b : Bool),
    st.zsets = chain P s b →
    (∀ Q, Q.length < P.length → lookupA st.kv Q = none) →
    deleteDirectoryRecord st P b = { st with zsets := [] } := by
  induction P using List.reverseRecOn with
  | nil =>
      intro st s b hz _
      rw [ddr_nil st [] b rfl]
      rw [state_zsets_nil st (by rw [hz, chain_nil [] s b rfl])]
  | append_singleton Q a ih =>
      intro st s b hz hkv
      have hd : (Q ++ [a]).dropLast = Q := List.dropLast_concat
      have hg : (Q ++ [a]).getLastD "" = a := List.getLastD_concat _ _ _
      have hlen : (Q ++ [a]).length = Q.length + 1 := by simp
      by_cases hQ : Q = []
      · rw [ddr_nil st (Q ++ [a]) b (by rw [hd, hQ])]
        rw [state_zsets_nil st
          (by rw [hz, chain_nil (Q ++ [a]) s b (by rw [hd, hQ])])]
      · have h : (Q ++ [a]).dropLast ≠ [] := by rw [hd]; exact hQ
        have hchain : st.zsets =
            (Q, [((a, b), s)]) :: chain Q s true := by
          rw [hz, chain_cons (Q ++ [a]) s b (by rw [hd]; exact hQ), hd, hg]
        have hlook : zlookup st (Q ++ [a]).dropLast = some [((a, b), s)] := by
          unfold zlookup
          rw [hd, hchain]
          simp [lookupA]
        have hfilter : ([((a, b), s)] : List (ZMember × Int)).filter
            (fun p => !(decide (p.1 = ((Q ++ [a]).getLastD "", b)))) = [] := by
          rw [hg]
          simp
        have hzr := zrem_last st (Q ++ [a]).dropLast
          ((Q ++ [a]).getLastD "", b) [((a, b), s)] hlook hfilter
        have hrm : removeA st.zsets (Q ++ [a]).dropLast = chain Q s true := by
          rw [hd, hchain, removeA_cons_self]
          apply removeA_eq_self
          intro p hp
          intro hc
          have := chain_keys_length Q s true p.1 p.2
            (by rw [Prod.mk.eta]; exact hp)
          rw [hc] at this
          omega
        have hex : existsKey
            (zrem st (Q ++ [a]).dropLast ((Q ++ [a]).getLastD "", b))
            (Q ++ [a]).dropLast = false := by
          rw [hzr]
          unfold existsKey zlookup
          simp only [hrm]
          rw [hd]
          have h1 : lookupA st.kv Q = none := hkv Q (by omega)
          have h2 : lookupA (chain Q s true) Q = none :=
            lookupA_chain_none Q Q s true (le_refl _)
          simp [h1, h2]
        rw [ddr_step_rec st (Q ++ [a]) b h hex, hzr, hrm, hd]
        rw [ih { st with zsets := chain Q s true } s true rfl
          (fun R hR => hkv R (by omega))]

/-! ### The encode half of Store -/

lemma store_ok (rs : Config) (cf : List Nat → List Nat) (nonce : List Nat)
    (now : Int) (st : RedisState) (key : Path) (value : List Nat)
    (henc : rs.EncryptionKey = [] ∨ aesKeyOk rs.EncryptionKey = true)
    (hfail : st.zaddFailing = []) :
    Store rs cf nonce now st key value =
      (kvSet (storeDirectoryRecord st (prefixKey rs key) now false false).1
        (prefixKey rs key)
        ⟨(if rs.EncryptionKey = []
            then (if rs.Compression = true ∧ (cf value).length < value.length
              then cf value else value)
            else nonce ++ gcmSeal rs.EncryptionKey nonce
              (if rs.Compression = true ∧ (cf value).length < value.length
                then cf value else value)),
          now, (value.length : Int),
          (if rs.Compression = true ∧ (cf value).length < value.length
            then 1 else 0),
          (if rs.EncryptionKey = [] then 0 else 1)⟩,
        Except.ok ()) := by
  have h2 := sdr_ok st (prefixKey rs key) now false false hfail
  rcases hsd : storeDirectoryRecord st (prefixKey rs key) now false false
    with ⟨st1, res⟩
  have hres : res = Except.ok () := by
    rw [hsd] at h2
    exact h2
  subst hres
  unfold Store
  simp only [hsd]
  by_cases hc : rs.Compression
  · by_cases hlt : (cf value).length < value.length
    · rcases henc with hk | hk
      · simp [hc, hlt, hk]
      · have hkne : rs.EncryptionKey ≠ [] := by
          intro hc2
          rw [hc2] at hk
          simp [aesKeyOk] at hk
        simp [hc, hlt, hk, hkne, encrypt]
    · rcases henc with hk | hk
      · simp [hc, hlt, hk]
      · have hkne : rs.EncryptionKey ≠ [] := by
          intro hc2
          rw [hc2] at hk
          simp [aesKeyOk] at hk
        simp [hc, hlt, hk, hkne, encrypt]
  · rcases henc with hk | hk
    · simp [hc, hk]
    · have hkne : rs.EncryptionKey ≠ [] := by
        intro hc2
        rw [hc2] at hk
        simp [aesKeyOk] at hk
      simp [hc, hk, hkne, encrypt]

/-! ### Claim theorems -/

/-- C1: for every byte payload, every compression setting and every
valid-length encryption key, decoding the result of encoding is the
identity: after a Store (with any flate-like compressor and its inverse,
any fresh nonce of the GCM nonce size, and no injected backing-store
faults), Load returns exactly the stored payload. -/
theorem c1_store_load_roundtrip (rs : Config) (cf : List Nat → List Nat)
    (uf : List Nat → Except Err (List Nat)) (nonce : List Nat) (now : Int)
    (st : RedisState) (key : Path) (value : List Nat)
    (hrt : ∀ v, uf (cf v) = Except.ok v)
    (henc : rs.EncryptionKey = [] ∨ aesKeyOk rs.EncryptionKey = true)
    (hnonce : nonce.length = gcmNonceSize)
    (hfail : st.zaddFailing = []) :
    (Store rs cf nonce now st key value).2 = Except.ok () ∧
    Load rs uf (Store rs cf nonce now st key value).1 key =
      Except.ok value := by
  rw [store_ok rs cf nonce now st key value henc hfail]
  refine ⟨rfl, ?_⟩
  by_cases hk : rs.EncryptionKey = []
  · unfold Load loadStorageData kvGet kvSet
    simp only [lookupA_update_self]
    by_cases hcc : rs.Compression = true ∧ (cf value).length < value.length
    · simp [hk, hcc, hrt]
    · simp [hk, hcc]
  · have hkeyok : aesKeyOk rs.EncryptionKey = true := by
      rcases henc with h | h
      · exact absurd h hk
      · exact h
    have hdec := decrypt_encrypt rs.EncryptionKey nonce
      (if rs.Compression = true ∧ (cf value).length < value.length
        then cf value else value)
      (nonce ++ gcmSeal rs.EncryptionKey nonce
        (if rs.Compression = true ∧ (cf value).length < value.length
          then cf value else value))
      hkeyok hnonce (by unfold encrypt; rw [if_pos hkeyok])
    unfold Load loadStorageData kvGet kvSet
    simp only [lookupA_update_self]
    by_cases hcc : rs.Compression = true ∧ (cf value).length < value.length
    · rw [if_pos hcc] at hdec
      simp [hk, hcc, hdec, hrt]
    · rw [if_neg hcc] at hdec
      simp [hk, hcc, hdec]

/-- Witness for C1 at a concrete input: compression and a 32 byte key
enabled, a compressible payload of eight bytes. -/
theorem c1_store_load_roundtrip_witness :
    (Store cfgFull toyCompress nonce12 5 emptyState ["a"]
      (List.replicate 8 7)).2 = Except.ok () ∧
    Load cfgFull toyUncompress
      (Store cfgFull toyCompress nonce12 5 emptyState ["a"]
        (List.replicate 8 7)).1 ["a"] =
      Except.ok (List.replicate 8 7) :=
  c1_store_load_roundtrip cfgFull toyCompress toyUncompress nonce12 5
    emptyState ["a"] (List.replicate 8 7) toy_roundtrip
    (Or.inr (by decide)) (by decide) rfl

/-- C3: when compression is enabled, the stored record adopts the
compressed form and sets the compression flag exactly when the compressed
form is strictly smaller than the raw input; otherwise the raw value is
stored (possibly encrypted) with the compression flag off. -/
theorem c3_compression_adoption (rs : Config) (cf : List Nat → List Nat)
    (nonce : List Nat) (now : Int) (st : RedisState) (key : Path)
    (value : List Nat) (hcomp : rs.Compression = true)
    (henc : rs.EncryptionKey = [] ∨ aesKeyOk rs.EncryptionKey = true)
    (hfail : st.zaddFailing = []) :
    ∃ sd : StorageData,
      kvGet (Store rs cf nonce now st key value).1 (prefixKey rs key) =
        some sd ∧
      (sd.Compression = 1 ↔ (cf value).length < value.length) ∧
      ((cf value).length < value.length →
        sd.Value = (if rs.EncryptionKey = [] then cf value
          else nonce ++ gcmSeal rs.EncryptionKey nonce (cf value))) ∧
      (¬ (cf value).length < value.length →
        sd.Compression = 0 ∧
        sd.Value = (if rs.EncryptionKey = [] then value
          else nonce ++ gcmSeal rs.EncryptionKey nonce value)) := by
  rw [store_ok rs cf nonce now st key value henc hfail]
  refine ⟨⟨(if rs.EncryptionKey = []
      then (if rs.Compression = true ∧ (cf value).length < value.length
        then cf value else value)
      else nonce ++ gcmSeal rs.EncryptionKey nonce
        (if rs.Compression = true ∧ (cf value).length < value.length
          then cf value else value)),
    now, (value.length : Int),
    (if rs.Compression = true ∧ (cf value).length < value.length
      then 1 else 0),
    (if rs.EncryptionKey = [] then 0 else 1)⟩, ?_, ?_, ?_, ?_⟩
  · show kvGet (kvSet _ (prefixKey rs key) _) (prefixKey rs key) = some _
    unfold kvGet kvSet
    exact lookupA_update_self _ _ _
  · by_cases hlt : (cf value).length < value.length
    · simp [hcomp, hlt]
    · simp [hcomp, hlt]
  · intro hlt
    simp [hcomp, hlt]
  · intro hlt
    simp [hcomp, hlt]

/-- Witness for C3 at a concrete input: the toy compressor shrinks the
eight byte payload, so the flag is set, and leaves a one byte payload
alone, exercised through the theorem at the compressible input. -/
theorem c3_compression_adoption_witness :
    ∃ sd : StorageData,
      kvGet (Store cfgFull toyCompress nonce12 5 emptyState ["a"]
        (List.replicate 8 7)).1 (prefixKey cfgFull ["a"]) = some sd ∧
      (sd.Compression = 1 ↔
        (toyCompress (List.replicate 8 7)).length <
          (List.replicate 8 7 : List Nat).length) ∧
      ((toyCompress (List.replicate 8 7)).length <
          (List.replicate 8 7 : List Nat).length →
        sd.Value = (if cfgFull.EncryptionKey = []
          then toyCompress (List.replicate 8 7)
          else nonce12 ++ gcmSeal cfgFull.EncryptionKey nonce12
            (toyCompress (List.replicate 8 7)))) ∧
      (¬ (toyCompress (List.replicate 8 7)).length <
          (List.replicate 8 7 : List Nat).length →
        sd.Compression = 0 ∧
        sd.Value = (if cfgFull.EncryptionKey = []
          then List.replicate 8 7
          else nonce12 ++ gcmSeal cfgFull.EncryptionKey nonce12
            (List.replicate 8 7))) :=
  c3_compression_adoption cfgFull toyCompress nonce12 5 emptyState ["a"]
    (List.replicate 8 7) rfl (Or.inr (by decide)) rfl

/-- C7: Stat on a present key reports the key, the Modified timestamp and
the pre-transform size recorded by Store, and Stat on an absent key fails
with the NotFound error. -/
theorem c7_stat_metadata (rs : Config) (cf : List Nat → List Nat)
    (nonce : List Nat) (now : Int) (st : RedisState) (key : Path)
    (value : List Nat)
    (henc : rs.EncryptionKey = [] ∨ aesKeyOk rs.EncryptionKey = true)
    (hfail : st.zaddFailing = []) :
    (kvGet st (prefixKey rs key) = none →
      Stat rs st key = Except.error Err.notFound) ∧
    Stat rs (Store rs cf nonce now st key value).1 key =
      Except.ok ⟨key, now, (value.length : Int), true⟩ := by
  constructor
  · intro h
    unfold Stat loadStorageData
    rw [h]
  · rw [store_ok rs cf nonce now st key value henc hfail]
    show Stat rs (kvSet _ (prefixKey rs key) _) key = _
    unfold Stat loadStorageData kvGet kvSet
    simp only [lookupA_update_self]

/-- Witness for C7 at a concrete input. -/
theorem c7_stat_metadata_witness :
    (kvGet emptyState (prefixKey cfgPlain ["a"]) = none →
      Stat cfgPlain emptyState ["a"] = Except.error Err.notFound) ∧
    Stat cfgPlain
      (Store cfgPlain toyCompress nonce12 3 emptyState ["a"] [9, 9]).1
      ["a"] = Except.ok ⟨["a"], 3, (2 : Int), true⟩ :=
  c7_stat_metadata cfgPlain toyCompress nonce12 3 emptyState ["a"] [9, 9]
    (Or.inl rfl) rfl

/-- C9: whenever Stat succeeds the returned metadata marks the key as a
terminal leaf, unconditionally: the IsTerminal field is the constant true
and is never derived from the directory index. -/
theorem c9_stat_always_terminal (rs : Config) (st : RedisState) (key : Path)
    (info : KeyInfo) (h : Stat rs st key = Except.ok info) :
    info.IsTerminal = true := by
  unfold Stat at h
  cases hl : loadStorageData rs st key with
  | error e =>
      rw [hl] at h
      exact Except.noConfusion h
  | ok sd =>
      rw [hl] at h
      injection h with h2
      rw [← h2]

/-- Witness for C9 at a concrete input. -/
theorem c9_stat_always_terminal_witness :
    (⟨["a"], 3, (2 : Int), true⟩ : KeyInfo).IsTerminal = true :=
  c9_stat_always_terminal cfgPlain
    (Store cfgPlain toyCompress nonce12 3 emptyState ["a"] [9, 9]).1
    ["a"] ⟨["a"], 3, (2 : Int), true⟩
    (c7_stat_metadata cfgPlain toyCompress nonce12 3 emptyState ["a"]
      [9, 9] (Or.inl rfl) rfl).2

/-- C10: decrypt rejects every input shorter than the 16 byte AES block
size with an error before any slicing, and Load on a record flagged as
encrypted whose stored value is shorter than 16 bytes returns the
decryption error rather than crashing. -/
theorem c10_short_ciphertext_rejected (key data : List Nat) (rs : Config)
    (uf : List Nat → Except Err (List Nat)) (st : RedisState) (k : Path)
    (sd : StorageData) (h1 : data.length < aesBlockSize)
    (h2 : kvGet st (prefixKey rs k) = some sd) (h3 : 0 < sd.Encryption)
    (h4 : sd.Value.length < aesBlockSize) :
    decrypt key data = Except.error (Err.msg "Invalid encrypted data") ∧
    Load rs uf st k = Except.error (Err.msg "Unable to decrypt value") := by
  constructor
  · unfold decrypt
    rw [if_pos h1]
  · unfold Load loadStorageData
    rw [h2]
    have hd : decrypt rs.EncryptionKey sd.Value =
        Except.error (Err.msg "Invalid encrypted data") := by
      unfold decrypt
      rw [if_pos h4]
    simp [h3, hd]

/-- Witness for C10 at a concrete input: a record flagged as encrypted
whose stored value is a single byte. -/
theorem c10_short_ciphertext_rejected_witness :
    decrypt (List.replicate 32 1) [0] =
      Except.error (Err.msg "Invalid encrypted data") ∧
    Load cfgFull toyUncompress
      ⟨[(prefixKey cfgFull ["a"], ⟨[0], 3, 1, 0, 1⟩)], [], []⟩ ["a"] =
      Except.error (Err.msg "Unable to decrypt value") :=
  c10_short_ciphertext_rejected (List.replicate 32 1) [0] cfgFull
    toyUncompress ⟨[(prefixKey cfgFull ["a"], ⟨[0], 3, 1, 0, 1⟩)], [], []⟩
    ["a"] ⟨[0], 3, 1, 0, 1⟩ (by decide) (by simp [kvGet, lookupA])
    (by decide) (by decide)

/-- C8: releasing a lock name for which no lease handle is held in the
in-process map is a no-op that returns success and leaves the map
unchanged. -/
theorem c8_unlock_unheld {L : Type} (releaseFn : L → Except Err Unit)
    (rs : Config) (locks : List (Path × L)) (name : String)
    (h : lookupA locks (prefixLock rs name) = none) :
    Unlock releaseFn rs locks name = (locks, Except.ok ()) := by
  unfold Unlock
  simp only [h]

/-- Witness for C8 at a concrete input: an empty lock map. -/
theorem c8_unlock_unheld_witness :
    Unlock (fun (_ : Unit) => Except.ok ()) cfgPlain [] "issue_cert" =
      (([] : List (Path × Unit)), Except.ok ()) :=
  c8_unlock_unheld (fun _ => Except.ok ()) cfgPlain [] "issue_cert" rfl

/-- C6: Store runs the directory index insertion before the flat record
write, and when the index insertion fails Store returns the failure with
the flat namespace unchanged (the value write is never attempted). -/
theorem c6_index_failure_stops_store (rs : Config)
    (cf : List Nat → List Nat) (nonce : List Nat) (now : Int)
    (st : RedisState) (key : Path) (value : List Nat) (e : Err)
    (henc : rs.EncryptionKey = [] ∨ aesKeyOk rs.EncryptionKey = true)
    (hidx : (storeDirectoryRecord st (prefixKey rs key) now false false).2 =
      Except.error e) :
    (Store rs cf nonce now st key value).2 =
      Except.error (Err.msg "Unable to create directory for key") ∧
    (Store rs cf nonce now st key value).1.kv = st.kv := by
  rcases hsd : storeDirectoryRecord st (prefixKey rs key) now false false
    with ⟨st1, res⟩
  have hres : res = Except.error e := by
    rw [hsd] at hidx
    exact hidx
  subst hres
  have hkv : st1.kv = st.kv := by
    have h2 := sdr_kv (prefixKey rs key) st now false false
    rw [hsd] at h2
    exact h2
  unfold Store
  simp only [hsd]
  by_cases hk : rs.EncryptionKey = []
  · exact ⟨by simp [hk], by simp [hk, hkv]⟩
  · have hkeyok : aesKeyOk rs.EncryptionKey = true := by
      rcases henc with h | h
      · exact absurd h hk
      · exact h
    exact ⟨by simp [hk, encrypt, hkeyok], by simp [hk, encrypt, hkeyok, hkv]⟩

/-- Witness for C6 at a concrete input: ZADD on the parent directory key
is fault-injected, so the index insertion fails and the flat namespace
stays empty. -/
theorem c6_index_failure_stops_store_witness :
    (Store cfgPlain toyCompress nonce12 5
      (⟨[], [], [["caddy"]]⟩ : RedisState) ["a"] [1, 2]).2 =
      Except.error (Err.msg "Unable to create directory for key") ∧
    (Store cfgPlain toyCompress nonce12 5
      (⟨[], [], [["caddy"]]⟩ : RedisState) ["a"] [1, 2]).1.kv =
      (⟨[], [], [["caddy"]]⟩ : RedisState).kv :=
  c6_index_failure_stops_store cfgPlain toyCompress nonce12 5
    (⟨[], [], [["caddy"]]⟩ : RedisState) ["a"] [1, 2]
    (Err.msg "Unable to add member to directory set") (Or.inl rfl)
    (by
      rw [sdr_step_err (⟨[], [], [["caddy"]]⟩ : RedisState)
        (⟨[], [], [["caddy"]]⟩ : RedisState) (prefixKey cfgPlain ["a"]) 5
        false false (Err.msg "zadd network error") (by simp [prefixKey, cfgPlain])
        (zadd_fail (⟨[], [], [["caddy"]]⟩ : RedisState)
          (prefixKey cfgPlain ["a"]).dropLast _ 5
          (by simp [prefixKey, cfgPlain]))])

/-- C2 counterexample: Delete of a key whose flat record is absent returns
success, not a NotFound-compatible error (DEL does not fail on an absent
key and Delete never checks existence), refuting the claim at the empty
store and key a. -/
theorem c2_delete_absent_counterexample :
    (Delete cfgPlain emptyState ["a"]).2 = Except.ok () ∧
    (Delete cfgPlain emptyState ["a"]).2 ≠ Except.error Err.notFound := by
  refine ⟨rfl, ?_⟩
  intro h
  exact Except.noConfusion h

/-- C2 amended: Delete on a key whose flat record is absent still performs
the defensive directory index cleanup, but returns success (a nil error)
rather than a NotFound-compatible error. -/
theorem c2_delete_absent_amended (rs : Config) (st : RedisState)
    (key : Path) (h : kvGet st (prefixKey rs key) = none) :
    (Delete rs st key).2 = Except.ok () ∧
    (Delete rs st key).1.zsets =
      (deleteDirectoryRecord st (prefixKey rs key) false).zsets :=
  ⟨rfl, rfl⟩

/-- Witness for the amended C2 at a concrete input. -/
theorem c2_delete_absent_amended_witness :
    (Delete cfgPlain emptyState ["a"]).2 = Except.ok () ∧
    (Delete cfgPlain emptyState ["a"]).1.zsets =
      (deleteDirectoryRecord emptyState (prefixKey cfgPlain ["a"])
        false).zsets :=
  c2_delete_absent_amended cfgPlain emptyState ["a"] rfl

/-- C5: the insertion walk outside repair mode stops immediately at the
root sentinel; it inserts the base member into the parent set; when the
member was already present it stops walking, changing the membership of no
directory set anywhere; when the member was newly added it continues to
the parent of the parent, recording the walked parent as a directory
member there. -/
theorem c5_insertion_walk (st : RedisState) (key : Path) (s : Int)
    (b : Bool) (hf : st.zaddFailing = []) :
    (key.dropLast = [] →
      storeDirectoryRecord st key s false b = (st, Except.ok ())) ∧
    (key.dropLast ≠ [] →
      (key.getLastD "", b) ∈
        zmembers ((storeDirectoryRecord st key s false b).1) key.dropLast) ∧
    (key.dropLast ≠ [] →
      (key.getLastD "", b) ∈ zmembers st key.dropLast →
      ∀ k2, zmembers ((storeDirectoryRecord st key s false b).1) k2 =
        zmembers st k2) ∧
    (key.dropLast ≠ [] →
      (key.getLastD "", b) ∉ zmembers st key.dropLast →
      key.dropLast.dropLast ≠ [] →
      (key.dropLast.getLastD "", true) ∈
        zmembers ((storeDirectoryRecord st key s false b).1)
          key.dropLast.dropLast) := by
  refine ⟨fun h => sdr_nil st key s false b h,
    fun h => sdr_inserts st key s false b hf h, ?_, ?_⟩
  · intro h hmem k2
    have hnf : key.dropLast ∉ st.zaddFailing := by rw [hf]; simp
    obtain ⟨ms, hms, hmm⟩ := (mem_zmembers_iff st key.dropLast _).mp hmem
    have ha : ms.any (fun p => decide (p.1 = (key.getLastD "", b))) = true := by
      rw [List.any_eq_true]
      obtain ⟨p, hp, hpm⟩ := List.mem_map.mp hmm
      exact ⟨p, hp, by simp [hpm]⟩
    have hz := zadd_dup st key.dropLast (key.getLastD "", b) s ms hnf hms ha
    rw [sdr_step_stop st _ key s false b 0 h hz (by simp)]
    have h2 := zadd_existing_names st key.dropLast (key.getLastD "", b) s
      hmem k2
    rw [hz] at h2
    exact h2
  · intro h hnot h2
    have hnf : key.dropLast ∉ st.zaddFailing := by rw [hf]; simp
    have hget : ∃ st1, zadd st key.dropLast (key.getLastD "", b) s =
        (st1, Except.ok 1) ∧ st1.zaddFailing = [] := by
      cases hms : zlookup st key.dropLast with
      | none =>
          refine ⟨_, zadd_none st _ _ s hnf hms, ?_⟩
          simp [hf]
      | some ms =>
          have ha : ms.any (fun p => decide (p.1 = (key.getLastD "", b))) =
              false := by
            rw [List.any_eq_false]
            intro p hp
            simp only [decide_eq_true_eq]
            intro hc
            exact hnot ((mem_zmembers_iff st key.dropLast _).mpr
              ⟨ms, hms, List.mem_map.mpr ⟨p, hp, hc⟩⟩)
          refine ⟨_, zadd_new st _ _ s ms hnf hms ha, ?_⟩
          simp [hf]
    obtain ⟨st1, hz, hf1⟩ := hget
    rw [sdr_step_rec st st1 key s false b 1 h hz (Or.inl one_pos)]
    exact sdr_inserts st1 key.dropLast s false true hf1 h2

/-- Witness for C5 at a concrete input: inserting a two component key into
the empty index records the base name under its parent. -/
theorem c5_insertion_walk_witness :
    ("a", false) ∈
      zmembers ((storeDirectoryRecord emptyState ["caddy", "a"] 1 false
        false).1) ["caddy"] :=
  (c5_insertion_walk emptyState ["caddy", "a"] 1 false rfl).2.1
    (by decide)

/-- C4: the deletion walk stops at the root sentinel, removes the base
member from the parent set, and stops exactly when the parent key still
exists after the removal; consequently storing a value at an arbitrary
deep path into an empty store and deleting it again removes every ancestor
directory entry (the directory index is empty again and the flat namespace
too), while a remaining sibling stops the cascade (shown on the concrete
two sibling scenario). -/
theorem c4_deletion_cascade (st : RedisState) (key : Path) (b : Bool)
    (rs : Config) (cf : List Nat → List Nat) (nonce : List Nat) (now : Int)
    (key2 : Path) (value : List Nat)
    (henc : rs.EncryptionKey = [] ∨ aesKeyOk rs.EncryptionKey = true) :
    (key.dropLast = [] → deleteDirectoryRecord st key b = st) ∧
    (key.dropLast ≠ [] →
      (key.getLastD "", b) ∉
        zmembers (deleteDirectoryRecord st key b) key.dropLast) ∧
    (key.dropLast ≠ [] →
      existsKey (zrem st key.dropLast (key.getLastD "", b))
        key.dropLast = true →
      deleteDirectoryRecord st key b =
        zrem st key.dropLast (key.getLastD "", b)) ∧
    ((Delete rs (Store rs cf nonce now emptyState key2 value).1
        key2).1.zsets = [] ∧
      (Delete rs (Store rs cf nonce now emptyState key2 value).1
        key2).1.kv = []) ∧
    (("2", false) ∈ zmembers (Delete cfgPlain
        (Store cfgPlain (fun v => v) [] 6
          (Store cfgPlain (fun v => v) [] 5 emptyState ["x", "1"] [1]).1
          ["x", "2"] [2]).1 ["x", "1"]).1 ["caddy", "x"] ∧
      ("x", true) ∈ zmembers (Delete cfgPlain
        (Store cfgPlain (fun v => v) [] 6
          (Store cfgPlain (fun v => v) [] 5 emptyState ["x", "1"] [1]).1
          ["x", "2"] [2]).1 ["x", "1"]).1 ["caddy"] ∧
      ("1", false) ∉ zmembers (Delete cfgPlain
        (Store cfgPlain (fun v => v) [] 6
          (Store cfgPlain (fun v => v) [] 5 emptyState ["x", "1"] [1]).1
          ["x", "2"] [2]).1 ["x", "1"]).1 ["caddy", "x"]) := by
  refine ⟨fun h => ddr_nil st key b h,
    fun h => ddr_removed st key b h,
    fun h hex => ddr_step_stop st key b h hex, ?_, ?_⟩
  · have hP := store_ok rs cf nonce now emptyState key2 value henc rfl
    have hfresh : ∀ Q : Path, Q.length < (prefixKey rs key2).length →
        lookupA emptyState.zsets Q = none := fun Q _ => rfl
    have hsdr := sdr_fresh (prefixKey rs key2) emptyState now false rfl hfresh
    obtain ⟨sd0, hstate⟩ : ∃ sd0,
        (Store rs cf nonce now emptyState key2 value).1 =
          kvSet ⟨[], chain (prefixKey rs key2) now false, []⟩
            (prefixKey rs key2) sd0 := by
      refine ⟨⟨(if rs.EncryptionKey = []
          then (if rs.Compression = true ∧ (cf value).length < value.length
            then cf value else value)
          else nonce ++ gcmSeal rs.EncryptionKey nonce
            (if rs.Compression = true ∧ (cf value).length < value.length
              then cf value else value)),
        now, (value.length : Int),
        (if rs.Compression = true ∧ (cf value).length < value.length
          then 1 else 0),
        (if rs.EncryptionKey = [] then 0 else 1)⟩, ?_⟩
      rw [hP]
      show kvSet (storeDirectoryRecord emptyState (prefixKey rs key2) now
        false false).1 (prefixKey rs key2) _ = _
      rw [hsdr]
      rfl
    rw [hstate]
    have hz : (kvSet ⟨[], chain (prefixKey rs key2) now false, []⟩
        (prefixKey rs key2) sd0).zsets = chain (prefixKey rs key2) now
          false := rfl
    have hkv : ∀ Q : Path, Q.length < (prefixKey rs key2).length →
        lookupA (kvSet ⟨[], chain (prefixKey rs key2) now false, []⟩
          (prefixKey rs key2) sd0).kv Q = none := by
      intro Q hQ
      have hne : prefixKey rs key2 ≠ Q := by
        intro hc
        rw [hc] at hQ
        omega
      simp [kvSet, updateA, lookupA, hne]
    have hddr := ddr_chain (prefixKey rs key2)
      (kvSet ⟨[], chain (prefixKey rs key2) now false, []⟩
        (prefixKey rs key2) sd0) now false hz hkv
    unfold Delete
    simp only [hddr]
    constructor
    · rfl
    · show removeA (updateA ([] : List (Path × StorageData))
        (prefixKey rs key2) sd0) (prefixKey rs key2) = []
      simp [updateA, removeA]
  · simp [Store, Delete, storeDirectoryRecord, deleteDirectoryRecord, zadd,
      zrem, zlookup, lookupA, updateA, removeA, kvSet, kvDel, kvGet,
      existsKey, zmembers, prefixKey, cfgPlain, emptyState, encrypt]

/-- Witness for C4 at a concrete input: a three component key stored into
the empty store and deleted again leaves no directory entries. -/
theorem c4_deletion_cascade_witness :
    (Delete cfgPlain (Store cfgPlain toyCompress nonce12 5 emptyState
      ["a", "b", "c"] [1]).1 ["a", "b", "c"]).1.zsets = [] ∧
    (Delete cfgPlain (Store cfgPlain toyCompress nonce12 5 emptyState
      ["a", "b", "c"] [1]).1 ["a", "b", "c"]).1.kv = [] :=
  (c4_deletion_cascade emptyState [] false cfgPlain toyCompress nonce12 5
    ["a", "b", "c"] [1] (Or.inl rfl)).2.2.2.1

end StorageRedis
